import Mathlib

/-!
Verification of the stock/price synchronization code (seller.py for
marketplace A / Ozon, market.py for marketplace B / Yandex Market).

The Python functions are embedded shallowly:

* a feed row (a dict with keys "Код", "Количество", "Цена") becomes a
  `FeedRecord` whose fields hold the `str()` of those cells;
* Python `int(s)` on a string becomes `pyInt : String → Option Int`
  (an optional sign followed by a non-empty run of ASCII digits; a
  `ValueError` is `none`);
* functions that can raise return `Option`;
* the in-place mutation of `offer_ids` performed by `create_stocks`
  (`offer_ids.remove(...)`, Python's remove-first-occurrence) is made
  explicit: the loop also returns the final value of the list, with
  `List.erase` playing the role of `list.remove`;
* the wall-clock timestamp captured by market.py's `create_stocks`
  (`datetime.datetime.utcnow()...`) is an explicit `date` argument;
* the paginated HTTP servers behind `get_offer_ids` are functions from a
  continuation token to a response page, and the `while True:` loops are
  given fuel (running out of fuel, i.e. a non-terminating loop, is `none`).
-/

/-- One row of the downloaded inventory feed (`watch_remnants`).  The fields
are the `str()` images of `watch.get("Код")`, `watch.get("Количество")` and
`watch.get("Цена")`. -/
structure FeedRecord where
  code : String
  quantity : String
  price : String
deriving DecidableEq

/-- Value of a non-empty digit string, most significant digit first. -/
def digitsVal (l : List Char) : Nat :=
  l.foldl (fun a c => a * 10 + (c.toNat - 48)) 0

/-- Parse a run of characters as a decimal numeral: defined exactly when the
run is non-empty and consists of ASCII digits. -/
def parseDigits (l : List Char) : Option Nat :=
  if l ≠ [] ∧ l.all Char.isDigit then some (digitsVal l) else none

/-- Python `int(s)` for a string argument: optional sign, then a non-empty
run of digits; anything else raises `ValueError`, modelled as `none`. -/
def pyInt (s : String) : Option Int :=
  match s.toList with
  | [] => none
  | c :: rest =>
    if c = '-' then (parseDigits rest).map (fun n => -(n : Int))
    else if c = '+' then (parseDigits rest).map (fun n => (n : Int))
    else (parseDigits (c :: rest)).map (fun n => (n : Int))

/-- seller.py `price_conversion`: `re.sub("[^0-9]", "", price.split(".")[0])`
keeps the digits of the part of `price` before the first dot. -/
def price_conversion (price : String) : String :=
  String.mk ((price.toList.takeWhile (fun c => c ≠ '.')).filter Char.isDigit)

/-- The quantity branch shared verbatim by seller.py and market.py
`create_stocks`: `">10"` gives 100, `"1"` gives 0, anything else goes
through `int(...)`. -/
def quantity_to_stock (count : String) : Option Int :=
  if count = ">10" then some 100
  else if count = "1" then some 0
  else pyInt count

/-- Chunks of size `m + 1`: the body of the slicing loop
`for i in range(0, len(lst), n): yield lst[i: i + n]` for step `n = m + 1`
(note `(x :: xs).drop (m + 1) = xs.drop m`). -/
def chunksBy (m : Nat) : List α → List (List α)
  | [] => []
  | x :: xs => (x :: xs).take (m + 1) :: chunksBy m (xs.drop m)
termination_by l => l.length
decreasing_by
  simp only [List.length_drop, List.length_cons]
  omega

/-- seller.py `divide` as observed by `list(divide(lst, n))`: for `n = 0`
`range` raises `ValueError` (`none`); for `n < 0` the `range` is empty so
no chunk is yielded; for `n ≥ 1` it yields the consecutive slices. -/
def divide (lst : List α) (n : Int) : Option (List (List α)) :=
  if n = 0 then none
  else if n < 0 then some []
  else some (chunksBy (n.toNat - 1) lst)

/-- Python `list(x)`: a fresh copy of a list, rebuilt element by element. -/
def list_copy (l : List α) : List α := l.foldr List.cons []

/-- One stock record appended by seller.py `create_stocks`:
`{"offer_id": ..., "stock": ...}`. -/
structure SellerStock where
  offer_id : String
  stock : Int
deriving DecidableEq

/-- One price record appended by seller.py `create_prices`. -/
structure SellerPrice where
  auto_action_enabled : String
  currency_code : String
  offer_id : String
  old_price : String
  price : String
deriving DecidableEq

/-- One item of seller.py's paginated product list: the parts of the
response dict that the code reads. -/
structure SellerProduct where
  product_id : Int
  offer_id : String
deriving DecidableEq

/-- One page of seller.py `get_product_list`: `items`, `total`, `last_id`. -/
structure SellerPage where
  items : List SellerProduct
  total : Int
  last_id : String

namespace Seller

/-- The first loop of seller.py `create_stocks`, with the threaded state
(`stocks` accumulator and the mutated `offer_ids`) explicit.  A matched
record appends one stock dict and removes the first occurrence of its code
from `offer_ids`; an unparsable quantity raises (`none`). -/
def create_stocks_loop : List FeedRecord → List SellerStock → List String →
    Option (List SellerStock × List String)
  | [], stocks, offer_ids => some (stocks, offer_ids)
  | watch :: rest, stocks, offer_ids =>
    if watch.code ∈ offer_ids then
      match quantity_to_stock watch.quantity with
      | none => none
      | some stock =>
        create_stocks_loop rest
          (stocks ++ [{ offer_id := watch.code, stock := stock }])
          (offer_ids.erase watch.code)
    else
      create_stocks_loop rest stocks offer_ids

/-- seller.py `create_stocks`, returning both the produced stock list
(matched records first, then the zero-fill of the leftover offer ids) and
the final value of the mutated `offer_ids` list. -/
def create_stocks_full (watch_remnants : List FeedRecord)
    (offer_ids : List String) : Option (List SellerStock × List String) :=
  (create_stocks_loop watch_remnants [] offer_ids).map (fun p =>
    (p.1 ++ p.2.map (fun offer_id => { offer_id := offer_id, stock := 0 }), p.2))

/-- The return value of seller.py `create_stocks`. -/
def create_stocks (watch_remnants : List FeedRecord)
    (offer_ids : List String) : Option (List SellerStock) :=
  (create_stocks_full watch_remnants offer_ids).map Prod.fst

/-- seller.py `create_prices`: one price dict per feed record whose code is
in `offer_ids`; the list is not mutated and nothing can raise. -/
def create_prices : List FeedRecord → List String → List SellerPrice
  | [], _ => []
  | watch :: rest, offer_ids =>
    if watch.code ∈ offer_ids then
      { auto_action_enabled := "UNKNOWN", currency_code := "RUB",
        offer_id := watch.code, old_price := "0",
        price := price_conversion watch.price } :: create_prices rest offer_ids
    else
      create_prices rest offer_ids

/-- The `while True:` pagination loop of seller.py `get_offer_ids`: extend
with the page's items, then stop as soon as the reported `total` equals the
accumulated length, else continue from the page's `last_id`. -/
def get_offer_ids_loop (server : String → SellerPage) :
    Nat → String → List SellerProduct → Option (List SellerProduct)
  | 0, _, _ => none
  | fuel + 1, last_id, product_list =>
    let some_prod := server last_id
    let product_list' := product_list ++ some_prod.items
    if some_prod.total = (product_list'.length : Int) then some product_list'
    else get_offer_ids_loop server fuel some_prod.last_id product_list'

/-- seller.py `get_offer_ids`: run the pagination loop from the empty
`last_id`, then keep each product's `offer_id`. -/
def get_offer_ids (server : String → SellerPage) (fuel : Nat) :
    Option (List String) :=
  (get_offer_ids_loop server fuel "" []).map (fun l =>
    l.map (fun p => p.offer_id))

/-- Modelled from the spec: the claim asserts that marketplace A's
pagination loop terminates "when the server signals no further continuation
token"; this variant of the loop implements those words (stop exactly when
the page's `last_id` is empty), for comparison with the code's loop. -/
def get_offer_ids_loop_token_model (server : String → SellerPage) :
    Nat → String → List SellerProduct → Option (List SellerProduct)
  | 0, _, _ => none
  | fuel + 1, last_id, product_list =>
    let some_prod := server last_id
    let product_list' := product_list ++ some_prod.items
    if some_prod.last_id = "" then some product_list'
    else get_offer_ids_loop_token_model server fuel some_prod.last_id product_list'

/-- Modelled from the spec: `get_offer_ids` as the claim describes it for
marketplace A, stopping on an empty continuation token. -/
def get_offer_ids_token_model (server : String → SellerPage) (fuel : Nat) :
    Option (List String) :=
  (get_offer_ids_loop_token_model server fuel "" []).map (fun l =>
    l.map (fun p => p.offer_id))

/-- The batches submitted by the stock push loop of seller.py `main` (and
`upload_stocks`): `list(divide(stocks, 100))`. -/
def main_stock_batches (stocks : List SellerStock) :
    Option (List (List SellerStock)) :=
  divide stocks 100

/-- The batches submitted by the price push loop of seller.py `main`:
`list(divide(prices, 900))`. -/
def main_price_batches (prices : List SellerPrice) :
    Option (List (List SellerPrice)) :=
  divide prices 900

/-- The batches submitted by seller.py `upload_prices`:
`list(divide(prices, 1000))`. -/
def upload_prices_batches (prices : List SellerPrice) :
    Option (List (List SellerPrice)) :=
  divide prices 1000

end Seller

/-- The `offer` part of one `offerMappingEntries` element of market.py's
catalog page: the code reads `product.get("offer").get("shopSku")`. -/
structure MarketOffer where
  shopSku : String
deriving DecidableEq

/-- One element of `offerMappingEntries`. -/
structure MarketEntry where
  offer : MarketOffer
deriving DecidableEq

/-- The `paging` part of a market.py catalog page. -/
structure MarketPaging where
  nextPageToken : String
deriving DecidableEq

/-- One page of market.py `get_product_list`: the entries and the paging
token that the code reads. -/
structure MarketPage where
  offerMappingEntries : List MarketEntry
  paging : MarketPaging

/-- One element of the `items` array of a market.py stock record. -/
structure MarketItem where
  count : Int
  type : String
  updatedAt : String
deriving DecidableEq

/-- One stock record appended by market.py `create_stocks`. -/
structure MarketStock where
  sku : String
  warehouseId : String
  items : List MarketItem
deriving DecidableEq

/-- The `price` sub-dict of a market.py price record. -/
structure MarketPriceVal where
  value : Int
  currencyId : String
deriving DecidableEq

/-- One price record appended by market.py `create_prices`. -/
structure MarketPrice where
  id : String
  price : MarketPriceVal
deriving DecidableEq

namespace Market

/-- The `while True:` pagination loop of market.py `get_offer_ids`: extend
with the page's entries, then stop as soon as the `nextPageToken` is falsy
(empty), else continue from it. -/
def get_offer_ids_loop (server : String → MarketPage) :
    Nat → String → List MarketEntry → Option (List MarketEntry)
  | 0, _, _ => none
  | fuel + 1, page, product_list =>
    let some_prod := server page
    let product_list' := product_list ++ some_prod.offerMappingEntries
    let page' := some_prod.paging.nextPageToken
    if page' = "" then some product_list'
    else get_offer_ids_loop server fuel page' product_list'

/-- market.py `get_offer_ids`: run the pagination loop from the empty page
token, then keep each entry's `offer.shopSku`. -/
def get_offer_ids (server : String → MarketPage) (fuel : Nat) :
    Option (List String) :=
  (get_offer_ids_loop server fuel "" []).map (fun l =>
    l.map (fun e => e.offer.shopSku))

/-- The first loop of market.py `create_stocks`, with the threaded state
explicit; `date` is the timestamp string the function captures from the
clock on entry. -/
def create_stocks_loop (warehouse_id date : String) :
    List FeedRecord → List MarketStock → List String →
    Option (List MarketStock × List String)
  | [], stocks, offer_ids => some (stocks, offer_ids)
  | watch :: rest, stocks, offer_ids =>
    if watch.code ∈ offer_ids then
      match quantity_to_stock watch.quantity with
      | none => none
      | some stock =>
        create_stocks_loop warehouse_id date rest
          (stocks ++
            [{ sku := watch.code,
               warehouseId := warehouse_id,
               items := [{ count := stock, type := "FIT", updatedAt := date }] }])
          (offer_ids.erase watch.code)
    else
      create_stocks_loop warehouse_id date rest stocks offer_ids

/-- market.py `create_stocks`, returning both the produced stock list and
the final value of the mutated `offer_ids` list. -/
def create_stocks_full (watch_remnants : List FeedRecord)
    (offer_ids : List String) (warehouse_id date : String) :
    Option (List MarketStock × List String) :=
  (create_stocks_loop warehouse_id date watch_remnants [] offer_ids).map
    (fun p =>
      (p.1 ++ p.2.map (fun offer_id =>
        { sku := offer_id,
          warehouseId := warehouse_id,
          items := [{ count := 0, type := "FIT", updatedAt := date }] }), p.2))

/-- The return value of market.py `create_stocks`. -/
def create_stocks (watch_remnants : List FeedRecord)
    (offer_ids : List String) (warehouse_id date : String) :
    Option (List MarketStock) :=
  (create_stocks_full watch_remnants offer_ids warehouse_id date).map Prod.fst

/-- market.py `create_prices`: one price dict per feed record whose code is
in `offer_ids`; `int(price_conversion(...))` can raise, so the result is an
`Option`. -/
def create_prices : List FeedRecord → List String → Option (List MarketPrice)
  | [], _ => some []
  | watch :: rest, offer_ids =>
    if watch.code ∈ offer_ids then
      match pyInt (price_conversion watch.price) with
      | none => none
      | some v =>
        (create_prices rest offer_ids).map (fun ps =>
          { id := watch.code,
            price := { value := v, currencyId := "RUR" } } :: ps)
    else
      create_prices rest offer_ids

/-- The batches submitted by market.py `upload_stocks` (and twice by
`main`): `list(divide(stocks, 2000))`. -/
def upload_stocks_batches (stocks : List MarketStock) :
    Option (List (List MarketStock)) :=
  divide stocks 2000

/-- The batches submitted by market.py `upload_prices`:
`list(divide(prices, 500))`. -/
def upload_prices_batches (prices : List MarketPrice) :
    Option (List (List MarketPrice)) :=
  divide prices 500

end Market

/-- The market.py stock record built from the same matched feed record as a
seller.py stock record: both `create_stocks` loops branch identically, so
they differ only by this per-record reshaping (proved below). -/
def toMarketStock (warehouse_id date : String) (s : SellerStock) :
    MarketStock :=
  { sku := s.offer_id, warehouseId := warehouse_id,
    items := [{ count := s.stock, type := "FIT", updatedAt := date }] }

/-! ## Lemmas about chunking (`divide`) -/

theorem chunksBy_flatten (m : Nat) : ∀ l : List α, (chunksBy m l).flatten = l
  | [] => by simp [chunksBy]
  | x :: xs => by
    rw [chunksBy]
    simp only [List.flatten_cons]
    rw [chunksBy_flatten m (xs.drop m)]
    simp [List.take_succ_cons]
termination_by l => l.length
decreasing_by
  simp only [List.length_drop, List.length_cons]
  omega

theorem chunksBy_eq_nil_iff (m : Nat) (l : List α) :
    chunksBy m l = [] ↔ l = [] := by
  cases l with
  | nil => simp [chunksBy]
  | cons x xs => rw [chunksBy]; simp

theorem chunksBy_length (m : Nat) : ∀ l : List α,
    (chunksBy m l).length = (l.length + m) / (m + 1)
  | [] => by
    simp only [chunksBy, List.length_nil, Nat.zero_add]
    exact (Nat.div_eq_of_lt (by omega)).symm
  | x :: xs => by
    rw [chunksBy]
    simp only [List.length_cons]
    rw [chunksBy_length m (xs.drop m)]
    simp only [List.length_drop]
    rcases Nat.lt_or_ge xs.length m with h | h
    · rw [Nat.sub_eq_zero_of_le (Nat.le_of_lt h), Nat.zero_add,
        Nat.div_eq_of_lt (by omega)]
      exact (Nat.div_eq_of_lt_le (by omega) (by omega)).symm
    · have h2 : xs.length + 1 + m = (xs.length - m + m) + (m + 1) := by omega
      rw [h2, Nat.add_div_right _ (by omega)]
termination_by l => l.length
decreasing_by
  simp only [List.length_drop, List.length_cons]
  omega

theorem chunksBy_mem_length_le (m : Nat) : ∀ (l : List α) (c : List α),
    c ∈ chunksBy m l → c.length ≤ m + 1
  | [], c => by simp [chunksBy]
  | x :: xs, c => by
    rw [chunksBy]
    intro hc
    rcases List.mem_cons.mp hc with h | h
    · subst h; simp [List.length_take]
    · exact chunksBy_mem_length_le m (xs.drop m) c h
termination_by l => l.length
decreasing_by
  simp only [List.length_drop, List.length_cons]
  omega

theorem chunksBy_mem_ne_nil (m : Nat) : ∀ (l : List α) (c : List α),
    c ∈ chunksBy m l → c ≠ []
  | [], c => by simp [chunksBy]
  | x :: xs, c => by
    rw [chunksBy]
    intro hc
    rcases List.mem_cons.mp hc with h | h
    · subst h; simp
    · exact chunksBy_mem_ne_nil m (xs.drop m) c h
termination_by l => l.length
decreasing_by
  simp only [List.length_drop, List.length_cons]
  omega

theorem chunksBy_dropLast_length (m : Nat) : ∀ (l : List α) (c : List α),
    c ∈ (chunksBy m l).dropLast → c.length = m + 1
  | [], c => by simp [chunksBy]
  | x :: xs, c => by
    rw [chunksBy]
    intro hc
    rcases eq_or_ne (chunksBy m (xs.drop m)) [] with h | h
    · rw [h] at hc; simp at hc
    · rw [List.dropLast_cons_of_ne_nil h] at hc
      rcases List.mem_cons.mp hc with h2 | h2
      · subst h2
        have hne : xs.drop m ≠ [] := by
          intro h3; exact h ((chunksBy_eq_nil_iff m _).mpr h3)
        have hm : m ≤ xs.length := by
          by_contra h4
          push_neg at h4
          exact hne (List.drop_eq_nil_of_le (Nat.le_of_lt h4))
        simp [List.length_take]
        omega
      · exact chunksBy_dropLast_length m (xs.drop m) c h2
termination_by l => l.length
decreasing_by
  simp only [List.length_drop, List.length_cons]
  omega

theorem divide_pos (l : List α) (n : Int) (hn : 1 ≤ n) :
    divide l n = some (chunksBy (n.toNat - 1) l) := by
  unfold divide
  rw [if_neg (by omega), if_neg (by omega)]

theorem divide_toNat_succ (n : Int) (hn : 1 ≤ n) : n.toNat - 1 + 1 = n.toNat := by
  omega

theorem divide_mem_length_le (l : List α) (n : Int) (bs : List (List α))
    (c : List α) (hn : 1 ≤ n) (hbs : divide l n = some bs) (hc : c ∈ bs) :
    c.length ≤ n.toNat := by
  rw [divide_pos l n hn] at hbs
  cases hbs
  have := chunksBy_mem_length_le (n.toNat - 1) l c hc
  omega

/-! ## Claim C6: shape of the chunking produced by `divide` -/

/-- C6: for every list of length L and every chunk size N ≥ 1,
`divide(lst, N)` yields exactly ceil(L/N) consecutive chunks (in `Nat`
arithmetic, `(L + (N - 1)) / N`), every chunk except possibly the last has
exactly N elements, the last has between 1 and N, and concatenating the
chunks in order reproduces the original list. -/
theorem divide_chunk_shape {α : Type} (l : List α) (n : Int)
    (cs : List (List α)) (hn : 1 ≤ n) (hcs : divide l n = some cs) :
    cs.length = (l.length + (n.toNat - 1)) / n.toNat ∧
    (∀ c ∈ cs.dropLast, c.length = n.toNat) ∧
    (∀ c, cs.getLast? = some c → 1 ≤ c.length ∧ c.length ≤ n.toNat) ∧
    cs.flatten = l := by
  rw [divide_pos l n hn] at hcs
  cases hcs
  have hsucc : n.toNat - 1 + 1 = n.toNat := divide_toNat_succ n hn
  refine ⟨?_, ?_, ?_, chunksBy_flatten _ l⟩
  · rw [chunksBy_length]; rw [hsucc]
  · intro c hc
    rw [← hsucc]
    exact chunksBy_dropLast_length _ l c hc
  · intro c hc
    have hmem : c ∈ chunksBy (n.toNat - 1) l := List.mem_of_mem_getLast? hc
    constructor
    · have := chunksBy_mem_ne_nil _ l c hmem
      cases c with
      | nil => exact absurd rfl this
      | cons a as => simp
    · rw [← hsucc]
      exact chunksBy_mem_length_le _ l c hmem

/-- C6 witness: `divide [1,2,3,4,5] 2 = some [[1,2],[3,4],[5]]`, which has
ceil(5/2) = 3 chunks, full chunks before the last, a last chunk of size 1,
and flattens back to the input. -/
theorem divide_chunk_shape_witness :
    ([[1, 2], [3, 4], [5]] : List (List Nat)).length =
        (([1, 2, 3, 4, 5] : List Nat).length + ((2 : Int).toNat - 1)) /
          (2 : Int).toNat ∧
      (∀ c ∈ ([[1, 2], [3, 4], [5]] : List (List Nat)).dropLast,
        c.length = (2 : Int).toNat) ∧
      (∀ c, ([[1, 2], [3, 4], [5]] : List (List Nat)).getLast? = some c →
        1 ≤ c.length ∧ c.length ≤ (2 : Int).toNat) ∧
      ([[1, 2], [3, 4], [5]] : List (List Nat)).flatten = [1, 2, 3, 4, 5] :=
  divide_chunk_shape [1, 2, 3, 4, 5] 2 [[1, 2], [3, 4], [5]]
    (by decide) (by simp [divide, chunksBy])

/-! ## Claim C7: per-endpoint batch caps in the push loops -/

/-- C7: in every push loop, each stock-update call receives at most the
marketplace stock cap (100 elements for marketplace A, 2000 for
marketplace B) and each price-update call at most the price cap (900
in seller.py `main` and 1000 in `upload_prices` for marketplace A, 500
for marketplace B). -/
theorem push_batch_caps (sA : List SellerStock) (pA : List SellerPrice)
    (sB : List MarketStock) (pB : List MarketPrice) :
    (∀ bs, Seller.main_stock_batches sA = some bs →
      ∀ c ∈ bs, c.length ≤ 100) ∧
    (∀ bs, Seller.main_price_batches pA = some bs →
      ∀ c ∈ bs, c.length ≤ 900) ∧
    (∀ bs, Seller.upload_prices_batches pA = some bs →
      ∀ c ∈ bs, c.length ≤ 1000) ∧
    (∀ bs, Market.upload_stocks_batches sB = some bs →
      ∀ c ∈ bs, c.length ≤ 2000) ∧
    (∀ bs, Market.upload_prices_batches pB = some bs →
      ∀ c ∈ bs, c.length ≤ 500) := by
  refine ⟨fun bs hbs c hc => ?_, fun bs hbs c hc => ?_, fun bs hbs c hc => ?_,
    fun bs hbs c hc => ?_, fun bs hbs c hc => ?_⟩
  · exact divide_mem_length_le sA 100 bs c (by omega) hbs hc
  · exact divide_mem_length_le pA 900 bs c (by omega) hbs hc
  · exact divide_mem_length_le pA 1000 bs c (by omega) hbs hc
  · exact divide_mem_length_le sB 2000 bs c (by omega) hbs hc
  · exact divide_mem_length_le pB 500 bs c (by omega) hbs hc

/-- C7 witness: a two-element stock list for marketplace A is pushed in one
batch of length 2 ≤ 100. -/
theorem push_batch_caps_witness :
    ([({ offer_id := "A", stock := 3 } : SellerStock),
      { offer_id := "B", stock := 4 }]).length ≤ 100 :=
  (push_batch_caps
      [{ offer_id := "A", stock := 3 }, { offer_id := "B", stock := 4 }]
      [] [] []).1
    [[{ offer_id := "A", stock := 3 }, { offer_id := "B", stock := 4 }]]
    (by simp [Seller.main_stock_batches, divide, chunksBy])
    [{ offer_id := "A", stock := 3 }, { offer_id := "B", stock := 4 }]
    (by decide)

/-! ## Claim C10: behaviour of `divide` outside the n ≥ 1 precondition -/

/-- C10: `divide` yields a defined chunk list only when n ≥ 1 and then never
yields an empty chunk; for n = 0 iterating it raises (modelled `none`), and
for n < 0 it yields no chunks at all, so a push loop would submit nothing. -/
theorem divide_precondition {α : Type} (l : List α) (n : Int)
    (cs : List (List α)) :
    (1 ≤ n → (divide l n).isSome) ∧
    (1 ≤ n → divide l n = some cs → [] ∉ cs) ∧
    divide l 0 = none ∧
    (n < 0 → divide l n = some []) := by
  refine ⟨fun hn => ?_, fun hn hcs hmem => ?_, ?_, fun hn => ?_⟩
  · rw [divide_pos l n hn]; rfl
  · rw [divide_pos l n hn] at hcs
    cases hcs
    exact chunksBy_mem_ne_nil _ l [] hmem rfl
  · unfold divide
    rw [if_pos rfl]
  · unfold divide
    rw [if_neg (by omega), if_pos hn]

/-- C10 witness: at list [1,2,3], chunk size 2 is defined with no empty
chunk, chunk size 0 raises, and chunk size -1 yields no chunks. -/
theorem divide_precondition_witness :
    (divide ([1, 2, 3] : List Nat) 2).isSome ∧
    ([] ∉ ([[1, 2], [3]] : List (List Nat))) ∧
    divide ([1, 2, 3] : List Nat) 0 = none ∧
    divide ([1, 2, 3] : List Nat) (-1) = some [] :=
  ⟨(divide_precondition [1, 2, 3] 2 [[1, 2], [3]]).1 (by decide),
    (divide_precondition [1, 2, 3] 2 [[1, 2], [3]]).2.1 (by decide)
      (by simp [divide, chunksBy]),
    (divide_precondition [1, 2, 3] 2 [[1, 2], [3]]).2.2.1,
    (divide_precondition [1, 2, 3] (-1) [[1, 2], [3]]).2.2.2 (by decide)⟩

/-! ## Lemmas about the numeric string parsers -/

theorem pyInt_of_digits (l : List Char) (h1 : l ≠ [])
    (h2 : l.all Char.isDigit) :
    pyInt (String.mk l) = some ((digitsVal l : Nat) : Int) := by
  cases l with
  | nil => exact absurd rfl h1
  | cons c cs =>
    have hd : c.isDigit := by
      have := List.all_eq_true.mp h2 c (List.mem_cons_self c cs)
      simpa using this
    have hc1 : c ≠ '-' := by
      intro h; rw [h] at hd; exact absurd hd (by decide)
    have hc2 : c ≠ '+' := by
      intro h; rw [h] at hd; exact absurd hd (by decide)
    show pyInt (String.mk (c :: cs)) = _
    unfold pyInt
    have hlist : (String.mk (c :: cs)).toList = c :: cs := rfl
    rw [hlist]
    simp only [if_neg hc1, if_neg hc2]
    unfold parseDigits
    rw [if_pos ⟨by simp, h2⟩]
    rfl

theorem price_conversion_all_digits (p : String) :
    (price_conversion p).toList.all Char.isDigit := by
  have h : (price_conversion p).toList =
      (p.toList.takeWhile (fun c => c ≠ '.')).filter Char.isDigit := rfl
  rw [h]
  exact List.all_eq_true.mpr (fun c hc => (List.mem_filter.mp hc).2)

theorem price_conversion_eq_mk (p : String) :
    price_conversion p =
      String.mk ((p.toList.takeWhile (fun c => c ≠ '.')).filter Char.isDigit) :=
  rfl

theorem pyInt_price_conversion_none_iff (p : String) :
    pyInt (price_conversion p) = none ↔ price_conversion p = "" := by
  constructor
  · intro h
    by_contra hne
    have h1 :
        ((p.toList.takeWhile (fun c => c ≠ '.')).filter Char.isDigit) ≠ [] := by
      intro h2
      exact hne (by rw [price_conversion_eq_mk, h2])
    have h3 := pyInt_of_digits _ h1 (price_conversion_all_digits p)
    rw [← price_conversion_eq_mk] at h3
    rw [h3] at h
    exact Option.noConfusion h
  · intro h; rw [h]; rfl

theorem market_create_prices_none_iff :
    ∀ (w : List FeedRecord) (ids : List String),
      Market.create_prices w ids = none ↔
        ∃ rec, rec ∈ w ∧ rec.code ∈ ids ∧ price_conversion rec.price = "" := by
  intro w
  induction w with
  | nil => intro ids; simp [Market.create_prices]
  | cons watch rest ih =>
    intro ids
    by_cases hmem : watch.code ∈ ids
    · rcases hpc : pyInt (price_conversion watch.price) with _ | v
      · simp only [Market.create_prices, if_pos hmem, hpc]
        constructor
        · intro _
          exact ⟨watch, List.mem_cons_self watch rest, hmem,
            (pyInt_price_conversion_none_iff watch.price).mp hpc⟩
        · intro _; trivial
      · simp only [Market.create_prices, if_pos hmem, hpc, Option.map_eq_none']
        rw [ih ids]
        constructor
        · rintro ⟨rec, hr, hi, hp⟩
          exact ⟨rec, List.mem_cons_of_mem watch hr, hi, hp⟩
        · rintro ⟨rec, hr, hi, hp⟩
          rcases List.mem_cons.mp hr with h | h
          · subst h
            rw [(pyInt_price_conversion_none_iff rec.price).mpr hp] at hpc
            exact Option.noConfusion hpc
          · exact ⟨rec, h, hi, hp⟩
    · simp only [Market.create_prices, if_neg hmem]
      rw [ih ids]
      constructor
      · rintro ⟨rec, hr, hi, hp⟩
        exact ⟨rec, List.mem_cons_of_mem watch hr, hi, hp⟩
      · rintro ⟨rec, hr, hi, hp⟩
        rcases List.mem_cons.mp hr with h | h
        · subst h; exact absurd hi hmem
        · exact ⟨rec, h, hi, hp⟩

/-! ## Claim C3: quantity normalization -/

/-- C3: the quantity normalization used by both `create_stocks` functions
maps ">10" to 100, "1" to 0, any other numeric string to its integer value
("7" to 7), and fails (ParseError, modelled `none`) on a non-numeric string
such as "abc"; in general every other string goes through Python `int`. -/
theorem quantity_normalization :
    quantity_to_stock ">10" = some 100 ∧
    quantity_to_stock "1" = some 0 ∧
    quantity_to_stock "7" = some 7 ∧
    quantity_to_stock "abc" = none ∧
    ∀ s : String, s ≠ ">10" → s ≠ "1" → quantity_to_stock s = pyInt s := by
  refine ⟨by decide, by decide, by decide, by decide, fun s h1 h2 => ?_⟩
  unfold quantity_to_stock
  rw [if_neg h1, if_neg h2]

/-- C3 witness: "5" is neither sentinel, so it is parsed with Python
`int`, giving 5. -/
theorem quantity_normalization_witness :
    quantity_to_stock "5" = pyInt "5" :=
  quantity_normalization.2.2.2.2 "5" (by decide) (by decide)

/-! ## Claim C4: price normalization and the empty-digit case -/

/-- C4 counterexample: the claim says an input yielding an empty digit
string makes the operation fail with ParseError, citing seller.py; but
seller.py's `price_conversion` returns the empty string and seller.py's
`create_prices` emits a PriceUpdate whose price is "" without any
failure. -/
theorem price_empty_digits_cex :
    price_conversion "руб." = "" ∧
    Seller.create_prices
        [{ code := "A", quantity := "5", price := "руб." }] ["A"] =
      [{ auto_action_enabled := "UNKNOWN", currency_code := "RUB",
         offer_id := "A", old_price := "0", price := "" }] := by
  exact ⟨rfl, rfl⟩

/-- C4 amended: price normalization keeps only the digits of the portion
before the first '.' ("5'990.00 руб." gives "5990", "1234" gives "1234");
on an input with no digits before the '.' `price_conversion` returns the
empty string and seller.py's `create_prices` emits that empty price without
failing, while market.py's `create_prices` fails (ParseError from
`int(...)`) exactly when some matched record's price converts to the empty
string. -/
theorem price_normalization_amended :
    price_conversion "5'990.00 руб." = "5990" ∧
    price_conversion "1234" = "1234" ∧
    price_conversion "руб." = "" ∧
    Seller.create_prices
        [{ code := "A", quantity := "5", price := "руб." }] ["A"] =
      [{ auto_action_enabled := "UNKNOWN", currency_code := "RUB",
         offer_id := "A", old_price := "0", price := "" }] ∧
    ∀ (w : List FeedRecord) (ids : List String),
      Market.create_prices w ids = none ↔
        ∃ rec, rec ∈ w ∧ rec.code ∈ ids ∧ price_conversion rec.price = "" := by
  exact ⟨rfl, rfl, rfl, rfl, market_create_prices_none_iff⟩

/-! ## Claim C5: pagination termination conditions -/

/-- Test server for seller.py pagination: the first page already reports
`total` equal to its item count but hands out a further continuation token;
the second page would contribute one more item. -/
def sellerCexServer : String → SellerPage := fun t =>
  if t = "" then
    { items := [{ product_id := 1, offer_id := "a" }], total := 1,
      last_id := "NEXT" }
  else
    { items := [{ product_id := 2, offer_id := "b" }], total := 1,
      last_id := "" }

/-- Test server for market.py pagination: a single page whose
`nextPageToken` is empty (the response carries no total at all). -/
def marketCexServer : String → MarketPage := fun _ =>
  { offerMappingEntries := [{ offer := { shopSku := "x" } }],
    paging := { nextPageToken := "" } }

/-- C5 counterexample: the claim attaches the stop conditions the wrong way
round.  On `sellerCexServer`, seller.py's loop stops after the first page
because the accumulated count equals the reported total, even though the
server handed out the continuation token "NEXT"; the loop the claim
describes for marketplace A (stop only on an empty token) would fetch the
second page as well.  And market.py's loop stops on the empty token of a
response that reports no total whatsoever. -/
theorem pagination_swap_cex :
    Seller.get_offer_ids sellerCexServer 5 = some ["a"] ∧
    Seller.get_offer_ids_token_model sellerCexServer 5 = some ["a", "b"] ∧
    Market.get_offer_ids marketCexServer 5 = some ["x"] := by
  exact ⟨rfl, rfl, rfl⟩

theorem seller_loop_total_of_some (srv : String → SellerPage) :
    ∀ (fuel : Nat) (tok : String) (acc res : List SellerProduct),
      Seller.get_offer_ids_loop srv fuel tok acc = some res →
      ∃ t, (srv t).total = (res.length : Int) := by
  intro fuel
  induction fuel with
  | zero =>
    intro tok acc res h
    exact Option.noConfusion h
  | succ n ih =>
    intro tok acc res h
    simp only [Seller.get_offer_ids_loop] at h
    by_cases hc : (srv tok).total = ((acc ++ (srv tok).items).length : Int)
    · rw [if_pos hc] at h
      cases h
      exact ⟨tok, hc⟩
    · rw [if_neg hc] at h
      exact ih _ _ _ h

theorem market_loop_token_of_some (srv : String → MarketPage) :
    ∀ (fuel : Nat) (tok : String) (acc res : List MarketEntry),
      Market.get_offer_ids_loop srv fuel tok acc = some res →
      ∃ t, (srv t).paging.nextPageToken = "" := by
  intro fuel
  induction fuel with
  | zero =>
    intro tok acc res h
    exact Option.noConfusion h
  | succ n ih =>
    intro tok acc res h
    simp only [Market.get_offer_ids_loop] at h
    by_cases hc : (srv tok).paging.nextPageToken = ""
    · exact ⟨tok, hc⟩
    · rw [if_neg hc] at h
      exact ih _ _ _ h

/-- C5 amended: both `get_offer_ids` functions paginate with a continuation
token starting empty and accumulate page entries, but the stop conditions
are the opposite of the claim's: seller.py (marketplace A) stops when the
accumulated entry count equals the server-reported total — so whenever it
returns, some requested page reported a total equal to the returned length —
and market.py (marketplace B) stops when the server signals no further
continuation token — so whenever it returns, some requested page carried an
empty `nextPageToken`. -/
theorem pagination_termination_amended :
    (∀ (srv : String → SellerPage) (fuel : Nat) (l : List String),
      Seller.get_offer_ids srv fuel = some l →
      ∃ t, (srv t).total = (l.length : Int)) ∧
    (∀ (srv : String → MarketPage) (fuel : Nat) (l : List String),
      Market.get_offer_ids srv fuel = some l →
      ∃ t, (srv t).paging.nextPageToken = "") := by
  constructor
  · intro srv fuel l h
    rcases Option.map_eq_some'.mp h with ⟨res, hres, hmap⟩
    rcases seller_loop_total_of_some srv fuel "" [] res hres with ⟨t, ht⟩
    exact ⟨t, by rw [← hmap, List.length_map]; exact ht⟩
  · intro srv fuel l h
    rcases Option.map_eq_some'.mp h with ⟨res, hres, _⟩
    exact market_loop_token_of_some srv fuel "" [] res hres

/-- C5 amended witness: on `sellerCexServer` the seller loop returns one
offer id and indeed some page (the first) reported total 1; on
`marketCexServer` some page carried an empty token. -/
theorem pagination_termination_amended_witness :
    (∃ t, (sellerCexServer t).total = ((["a"] : List String).length : Int)) ∧
    (∃ t, (marketCexServer t).paging.nextPageToken = "") :=
  ⟨pagination_termination_amended.1 sellerCexServer 5 ["a"] rfl,
    pagination_termination_amended.2 marketCexServer 5 ["x"] rfl⟩

/-! ## Claim C8: determinism of reconciliation -/

theorem list_copy_eq (l : List α) : list_copy l = l := by
  induction l with
  | nil => rfl
  | cons x xs ih =>
    simp only [list_copy] at ih ⊢
    simp [ih]

/-- C8 counterexample: market.py's `create_stocks` embeds the wall-clock
timestamp captured at entry (`updatedAt`) in every stock record, so two
runs of reconciliation on the same feed and the same catalog snapshot, at
different instants, produce different stock outputs for marketplace B. -/
theorem reconcile_timestamp_cex :
    Market.create_stocks [] ["A"] "W" "2024-01-01T00:00:00Z" ≠
      Market.create_stocks [] ["A"] "W" "2024-01-01T00:00:01Z" := by
  decide

/-- C8 amended: reconciliation is deterministic in its explicit inputs:
running any of the four reconciliation functions on the same feed and a
fresh copy of the offer-id collection yields output identical (as a list,
hence order-stable) to running it on the original collection — for
marketplace B provided the same captured timestamp `d` is supplied, since
the stock records embed that timestamp and runs at different instants
differ exactly there. -/
theorem reconcile_deterministic_amended (feed : List FeedRecord)
    (ids : List String) (w d : String) :
    Seller.create_stocks feed (list_copy ids) = Seller.create_stocks feed ids ∧
    Seller.create_prices feed (list_copy ids) = Seller.create_prices feed ids ∧
    Market.create_stocks feed (list_copy ids) w d =
      Market.create_stocks feed ids w d ∧
    Market.create_prices feed (list_copy ids) =
      Market.create_prices feed ids := by
  rw [list_copy_eq]
  exact ⟨rfl, rfl, rfl, rfl⟩

/-! ## Lemmas about the create_stocks matching loop -/

theorem seller_loop_count_not_mem (c : String) :
    ∀ (feed : List FeedRecord) (acc : List SellerStock) (ids : List String)
      (matched : List SellerStock) (rem : List String),
      Seller.create_stocks_loop feed acc ids = some (matched, rem) → c ∉ ids →
      (matched.filter (fun s => s.offer_id = c)).length =
        (acc.filter (fun s => s.offer_id = c)).length := by
  intro feed
  induction feed with
  | nil =>
    intro acc ids matched rem h hc
    simp only [Seller.create_stocks_loop, Option.some.injEq, Prod.mk.injEq] at h
    rw [← h.1]
  | cons watch rest ih =>
    intro acc ids matched rem h hc
    simp only [Seller.create_stocks_loop] at h
    by_cases hmem : watch.code ∈ ids
    · rw [if_pos hmem] at h
      rcases hq : quantity_to_stock watch.quantity with _ | st
      · rw [hq] at h; exact Option.noConfusion h
      · rw [hq] at h
        have hcc : c ∉ ids.erase watch.code :=
          fun hx => hc (List.mem_of_mem_erase hx)
        have hne : ¬ (watch.code = c) := fun he => hc (he ▸ hmem)
        have h2 := ih _ _ matched rem h hcc
        rw [h2, List.filter_append]
        simp [hne]
    · rw [if_neg hmem] at h
      exact ih acc ids matched rem h hc

theorem seller_loop_rem_sublist :
    ∀ (feed : List FeedRecord) (acc : List SellerStock) (ids : List String)
      (matched : List SellerStock) (rem : List String),
      Seller.create_stocks_loop feed acc ids = some (matched, rem) → rem.Sublist ids := by
  intro feed
  induction feed with
  | nil =>
    intro acc ids matched rem h
    simp only [Seller.create_stocks_loop, Option.some.injEq, Prod.mk.injEq] at h
    rw [← h.2]
  | cons watch rest ih =>
    intro acc ids matched rem h
    simp only [Seller.create_stocks_loop] at h
    by_cases hmem : watch.code ∈ ids
    · rw [if_pos hmem] at h
      rcases hq : quantity_to_stock watch.quantity with _ | st
      · rw [hq] at h; exact Option.noConfusion h
      · rw [hq] at h
        exact (ih _ _ matched rem h).trans (List.erase_sublist _ _)
    · rw [if_neg hmem] at h
      exact ih acc ids matched rem h

theorem seller_loop_count_dichotomy (i : String) :
    ∀ (feed : List FeedRecord) (acc : List SellerStock) (ids : List String)
      (matched : List SellerStock) (rem : List String),
      ids.Nodup → i ∈ ids →
      Seller.create_stocks_loop feed acc ids = some (matched, rem) →
      (i ∈ rem ∧ (matched.filter (fun s => s.offer_id = i)).length =
          (acc.filter (fun s => s.offer_id = i)).length) ∨
      (i ∉ rem ∧ (matched.filter (fun s => s.offer_id = i)).length =
          (acc.filter (fun s => s.offer_id = i)).length + 1) := by
  intro feed
  induction feed with
  | nil =>
    intro acc ids matched rem hnd hi h
    simp only [Seller.create_stocks_loop, Option.some.injEq, Prod.mk.injEq] at h
    left
    rw [← h.1, ← h.2]
    exact ⟨hi, rfl⟩
  | cons watch rest ih =>
    intro acc ids matched rem hnd hi h
    simp only [Seller.create_stocks_loop] at h
    by_cases hmem : watch.code ∈ ids
    · rw [if_pos hmem] at h
      rcases hq : quantity_to_stock watch.quantity with _ | st
      · rw [hq] at h; exact Option.noConfusion h
      · rw [hq] at h
        by_cases heq : i = watch.code
        · have hni : i ∉ ids.erase watch.code := by
            rw [heq]; exact hnd.not_mem_erase
          right
          refine ⟨fun hr =>
            hni ((seller_loop_rem_sublist rest _ _ matched rem h).subset hr), ?_⟩
          have h2 := seller_loop_count_not_mem i rest _ _ matched rem h hni
          rw [h2, List.filter_append]
          simp [heq.symm]
        · have hi2 : i ∈ ids.erase watch.code :=
            (List.mem_erase_of_ne heq).mpr hi
          have hacc : ((acc ++
              [({ offer_id := watch.code, stock := st } : SellerStock)]).filter
                (fun s => s.offer_id = i)).length =
              (acc.filter (fun s => s.offer_id = i)).length := by
            rw [List.filter_append]
            have hne : ¬ (watch.code = i) := fun he => heq he.symm
            simp [hne]
          rcases ih _ _ matched rem (hnd.erase watch.code) hi2 h with
            ⟨hr, hcnt⟩ | ⟨hr, hcnt⟩
          · left; exact ⟨hr, by rw [hcnt, hacc]⟩
          · right; exact ⟨hr, by rw [hcnt, hacc]⟩
    · rw [if_neg hmem] at h
      exact ih acc ids matched rem hnd hi h

theorem seller_loop_unmatched_stays (i : String) :
    ∀ (feed : List FeedRecord) (acc : List SellerStock) (ids : List String)
      (matched : List SellerStock) (rem : List String),
      Seller.create_stocks_loop feed acc ids = some (matched, rem) → i ∈ ids →
      (∀ rec ∈ feed, rec.code ≠ i) → i ∈ rem := by
  intro feed
  induction feed with
  | nil =>
    intro acc ids matched rem h hi _
    simp only [Seller.create_stocks_loop, Option.some.injEq, Prod.mk.injEq] at h
    rw [← h.2]; exact hi
  | cons watch rest ih =>
    intro acc ids matched rem h hi hcode
    simp only [Seller.create_stocks_loop] at h
    by_cases hmem : watch.code ∈ ids
    · rw [if_pos hmem] at h
      rcases hq : quantity_to_stock watch.quantity with _ | st
      · rw [hq] at h; exact Option.noConfusion h
      · rw [hq] at h
        have hne : i ≠ watch.code :=
          fun he => hcode watch (List.mem_cons_self watch rest) he.symm
        have hi2 : i ∈ ids.erase watch.code :=
          (List.mem_erase_of_ne hne).mpr hi
        exact ih _ _ matched rem h hi2
          (fun rec hr => hcode rec (List.mem_cons_of_mem watch hr))
    · rw [if_neg hmem] at h
      exact ih acc ids matched rem h hi
        (fun rec hr => hcode rec (List.mem_cons_of_mem watch hr))

theorem seller_loop_count_code_not_in_feed (c : String) :
    ∀ (feed : List FeedRecord) (acc : List SellerStock) (ids : List String)
      (matched : List SellerStock) (rem : List String),
      Seller.create_stocks_loop feed acc ids = some (matched, rem) →
      (∀ rec ∈ feed, rec.code ≠ c) →
      (matched.filter (fun s => s.offer_id = c)).length =
        (acc.filter (fun s => s.offer_id = c)).length := by
  intro feed
  induction feed with
  | nil =>
    intro acc ids matched rem h _
    simp only [Seller.create_stocks_loop, Option.some.injEq, Prod.mk.injEq] at h
    rw [← h.1]
  | cons watch rest ih =>
    intro acc ids matched rem h hcode
    simp only [Seller.create_stocks_loop] at h
    by_cases hmem : watch.code ∈ ids
    · rw [if_pos hmem] at h
      rcases hq : quantity_to_stock watch.quantity with _ | st
      · rw [hq] at h; exact Option.noConfusion h
      · rw [hq] at h
        have h2 := ih _ _ matched rem h
          (fun rec hr => hcode rec (List.mem_cons_of_mem watch hr))
        rw [h2, List.filter_append]
        have hne : ¬ (watch.code = c) :=
          hcode watch (List.mem_cons_self watch rest)
        simp [hne]
    · rw [if_neg hmem] at h
      exact ih acc ids matched rem h
        (fun rec hr => hcode rec (List.mem_cons_of_mem watch hr))

theorem seller_loop_rem_eq_filter :
    ∀ (feed : List FeedRecord) (acc : List SellerStock) (ids : List String)
      (matched : List SellerStock) (rem : List String),
      ids.Nodup →
      Seller.create_stocks_loop feed acc ids = some (matched, rem) →
      rem = ids.filter (fun i => feed.all (fun rec => !(rec.code == i))) := by
  intro feed
  induction feed with
  | nil =>
    intro acc ids matched rem _ h
    simp only [Seller.create_stocks_loop, Option.some.injEq, Prod.mk.injEq] at h
    rw [← h.2]
    simp
  | cons watch rest ih =>
    intro acc ids matched rem hnd h
    simp only [Seller.create_stocks_loop] at h
    by_cases hmem : watch.code ∈ ids
    · rw [if_pos hmem] at h
      rcases hq : quantity_to_stock watch.quantity with _ | st
      · rw [hq] at h; exact Option.noConfusion h
      · rw [hq] at h
        have h2 := ih _ _ matched rem (hnd.erase watch.code) h
        rw [h2, hnd.erase_eq_filter watch.code, List.filter_filter]
        refine List.filter_congr (fun i hi => ?_)
        simp only [List.all_cons]
        rcases eq_or_ne watch.code i with he | he
        · subst he; simp [Bool.and_comm]
        · have hb1 : (i == watch.code) = false :=
            beq_eq_false_iff_ne.mpr (Ne.symm he)
          have hb2 : (watch.code == i) = false := beq_eq_false_iff_ne.mpr he
          simp [bne, hb1, hb2]
    · rw [if_neg hmem] at h
      have h2 := ih acc ids matched rem hnd h
      rw [h2]
      refine List.filter_congr (fun i hi => ?_)
      have hne : watch.code ≠ i := fun he => hmem (he ▸ hi)
      have hb : (watch.code == i) = false := beq_eq_false_iff_ne.mpr hne
      simp [List.all_cons, hb]

theorem seller_loop_matched_once :
    ∀ (feed : List FeedRecord) (acc : List SellerStock) (ids : List String)
      (matched : List SellerStock) (rem : List String),
      (feed.map (fun r => r.code)).Nodup →
      Seller.create_stocks_loop feed acc ids = some (matched, rem) →
      ∀ rec ∈ feed, rec.code ∈ ids →
        (matched.filter (fun s => s.offer_id = rec.code)).length =
          (acc.filter (fun s => s.offer_id = rec.code)).length + 1 := by
  intro feed
  induction feed with
  | nil =>
    intro acc ids matched rem _ h rec hrec
    exact absurd hrec (List.not_mem_nil rec)
  | cons watch rest ih =>
    intro acc ids matched rem hnd h rec hrec hrc
    simp only [List.map_cons, List.nodup_cons] at hnd
    rcases hnd with ⟨hwc, hnd2⟩
    simp only [Seller.create_stocks_loop] at h
    by_cases hmem : watch.code ∈ ids
    · rw [if_pos hmem] at h
      rcases hq : quantity_to_stock watch.quantity with _ | st
      · rw [hq] at h; exact Option.noConfusion h
      · rw [hq] at h
        rcases List.mem_cons.mp hrec with he | he
        · subst he
          have hnf : ∀ r ∈ rest, r.code ≠ rec.code := by
            intro r hr he2
            exact hwc (he2 ▸ List.mem_map_of_mem (fun r => r.code) hr)
          have h2 := seller_loop_count_code_not_in_feed rec.code rest _ _
            matched rem h hnf
          rw [h2, List.filter_append]
          simp
        · have hne : rec.code ≠ watch.code := by
            intro he2
            exact hwc (he2 ▸ List.mem_map_of_mem (fun r => r.code) he)
          have hi2 : rec.code ∈ ids.erase watch.code :=
            (List.mem_erase_of_ne hne).mpr hrc
          have h2 := ih _ _ matched rem hnd2 h rec he hi2
          rw [h2, List.filter_append]
          have hb : ¬ (watch.code = rec.code) := fun he2 => hne he2.symm
          simp [hb]
    · rw [if_neg hmem] at h
      rcases List.mem_cons.mp hrec with he | he
      · subst he; exact absurd hrc hmem
      · exact ih acc ids matched rem hnd2 h rec he hrc


/-! ## Lemmas about the price lists -/

theorem filter_eq_length_of_nodup (l : List String) (i : String)
    (h : l.Nodup) :
    (l.filter (fun x => x = i)).length = if i ∈ l then 1 else 0 := by
  induction l with
  | nil => simp
  | cons x xs ih =>
    simp only [List.nodup_cons] at h
    rcases h with ⟨hx, hnd⟩
    rcases eq_or_ne x i with he | he
    · subst he
      rw [List.filter_cons, if_pos (by simp)]
      have hfe : xs.filter (fun y => y = x) = [] :=
        List.filter_eq_nil_iff.mpr (fun a ha => by
          simp only [decide_eq_true_eq]
          rintro rfl
          exact hx ha)
      simp [hfe]
    · rw [List.filter_cons, if_neg (by simp [he])]
      rw [ih hnd]
      congr 1
      simp [List.mem_cons, Ne.symm he]

theorem seller_prices_mem_code :
    ∀ (feed : List FeedRecord) (ids : List String) (p : SellerPrice),
      p ∈ Seller.create_prices feed ids →
      ∃ rec, rec ∈ feed ∧ p.offer_id = rec.code := by
  intro feed
  induction feed with
  | nil => intro ids p hp; simp [Seller.create_prices] at hp
  | cons watch rest ih =>
    intro ids p hp
    simp only [Seller.create_prices] at hp
    by_cases hmem : watch.code ∈ ids
    · rw [if_pos hmem] at hp
      rcases List.mem_cons.mp hp with he | he
      · exact ⟨watch, List.mem_cons_self watch rest, by rw [he]⟩
      · rcases ih ids p he with ⟨rec, hr, hc⟩
        exact ⟨rec, List.mem_cons_of_mem watch hr, hc⟩
    · rw [if_neg hmem] at hp
      rcases ih ids p hp with ⟨rec, hr, hc⟩
      exact ⟨rec, List.mem_cons_of_mem watch hr, hc⟩

theorem seller_prices_filter_nil (c : String) (feed : List FeedRecord)
    (ids : List String) (hc : ∀ rec ∈ feed, rec.code ≠ c) :
    (Seller.create_prices feed ids).filter (fun p => p.offer_id = c) = [] :=
  List.filter_eq_nil_iff.mpr (fun p hp => by
    simp only [decide_eq_true_eq]
    intro he
    rcases seller_prices_mem_code feed ids p hp with ⟨rec, hr, hpc⟩
    exact hc rec hr (by rw [← hpc, he]))

theorem seller_prices_count_one :
    ∀ (feed : List FeedRecord) (ids : List String),
      (feed.map (fun r => r.code)).Nodup →
      ∀ rec ∈ feed, rec.code ∈ ids →
        ((Seller.create_prices feed ids).filter
          (fun p => p.offer_id = rec.code)).length = 1 := by
  intro feed
  induction feed with
  | nil => intro ids _ rec hrec; exact absurd hrec (List.not_mem_nil rec)
  | cons watch rest ih =>
    intro ids hnd rec hrec hrc
    simp only [List.map_cons, List.nodup_cons] at hnd
    rcases hnd with ⟨hwc, hnd2⟩
    simp only [Seller.create_prices]
    rcases List.mem_cons.mp hrec with he | he
    · subst he
      rw [if_pos hrc, List.filter_cons, if_pos (by simp)]
      have hnf : ∀ r ∈ rest, r.code ≠ rec.code := by
        intro r hr he2
        exact hwc (he2 ▸ List.mem_map_of_mem (fun r2 => r2.code) hr)
      rw [seller_prices_filter_nil rec.code rest ids hnf]
      rfl
    · have hne : rec.code ≠ watch.code := by
        intro he2
        exact hwc (he2 ▸ List.mem_map_of_mem (fun r2 => r2.code) he)
      by_cases hmem : watch.code ∈ ids
      · rw [if_pos hmem, List.filter_cons, if_neg (by simp [Ne.symm hne])]
        exact ih ids hnd2 rec he hrc
      · rw [if_neg hmem]
        exact ih ids hnd2 rec he hrc

theorem seller_prices_nil :
    ∀ (feed : List FeedRecord) (ids : List String),
      (∀ rec ∈ feed, rec.code ∉ ids) → Seller.create_prices feed ids = [] := by
  intro feed
  induction feed with
  | nil => intro ids _; rfl
  | cons watch rest ih =>
    intro ids h
    simp only [Seller.create_prices]
    rw [if_neg (h watch (List.mem_cons_self watch rest))]
    exact ih ids (fun rec hr => h rec (List.mem_cons_of_mem watch hr))

theorem market_prices_mem_code :
    ∀ (feed : List FeedRecord) (ids : List String) (ps : List MarketPrice)
      (p : MarketPrice),
      Market.create_prices feed ids = some ps → p ∈ ps →
      ∃ rec, rec ∈ feed ∧ p.id = rec.code := by
  intro feed
  induction feed with
  | nil =>
    intro ids ps p hps hp
    simp only [Market.create_prices, Option.some.injEq] at hps
    rw [← hps] at hp
    exact absurd hp (List.not_mem_nil p)
  | cons watch rest ih =>
    intro ids ps p hps hp
    simp only [Market.create_prices] at hps
    by_cases hmem : watch.code ∈ ids
    · rw [if_pos hmem] at hps
      rcases hq : pyInt (price_conversion watch.price) with _ | v
      · rw [hq] at hps; exact Option.noConfusion hps
      · rw [hq] at hps
        rcases Option.map_eq_some'.mp hps with ⟨ps2, hps2, hcons⟩
        rw [← hcons] at hp
        rcases List.mem_cons.mp hp with he | he
        · exact ⟨watch, List.mem_cons_self watch rest, by rw [he]⟩
        · rcases ih ids ps2 p hps2 he with ⟨rec, hr, hc⟩
          exact ⟨rec, List.mem_cons_of_mem watch hr, hc⟩
    · rw [if_neg hmem] at hps
      rcases ih ids ps p hps hp with ⟨rec, hr, hc⟩
      exact ⟨rec, List.mem_cons_of_mem watch hr, hc⟩

/-! ## Claim C1: one update per matched feed record -/

/-- C1 counterexample: with the duplicated feed record (code "A") and
catalog ["A"], `create_stocks` emits a single StockUpdate — the second
record, whose code was in the catalog at the start of the run, contributes
none, because the first occurrence removed "A" — while `create_prices`,
which never removes matched codes from `offer_ids`, emits TWO PriceUpdates
for the one code.  Both halves contradict "exactly one StockUpdate and
exactly one PriceUpdate per feed record, even with duplicate codes, covering
both create_stocks and create_prices". -/
theorem duplicate_feed_code_cex :
    Seller.create_stocks
        [{ code := "A", quantity := "5", price := "7" },
         { code := "A", quantity := "5", price := "7" }] ["A"] =
      some [{ offer_id := "A", stock := 5 }] ∧
    Seller.create_prices
        [{ code := "A", quantity := "5", price := "7" },
         { code := "A", quantity := "5", price := "7" }] ["A"] =
      [{ auto_action_enabled := "UNKNOWN", currency_code := "RUB",
         offer_id := "A", old_price := "0", price := "7" },
       { auto_action_enabled := "UNKNOWN", currency_code := "RUB",
         offer_id := "A", old_price := "0", price := "7" }] := by
  exact ⟨rfl, rfl⟩

/-- C1 amended: when the feed's codes are pairwise distinct, each feed
record whose code is in `offer_ids` contributes exactly one matched
StockUpdate in `create_stocks` and exactly one PriceUpdate in
`create_prices` (each called with the offer-id collection as given).  With
duplicate feed codes, `create_stocks` still emits at most one matched
StockUpdate per code on a duplicate-free catalog — the matched code is
removed from `offer_ids` — but `create_prices` does not remove codes, so
each duplicate contributes its own PriceUpdate. -/
theorem matched_record_unique_updates :
    (∀ (feed : List FeedRecord) (ids : List String)
        (matched : List SellerStock) (rem : List String),
      (feed.map (fun r => r.code)).Nodup →
      Seller.create_stocks_loop feed [] ids = some (matched, rem) →
      ∀ rec ∈ feed, rec.code ∈ ids →
        (matched.filter (fun s => s.offer_id = rec.code)).length = 1 ∧
        ((Seller.create_prices feed ids).filter
          (fun p => p.offer_id = rec.code)).length = 1) ∧
    (∀ (feed : List FeedRecord) (ids : List String)
        (matched : List SellerStock) (rem : List String) (c : String),
      ids.Nodup →
      Seller.create_stocks_loop feed [] ids = some (matched, rem) →
      (matched.filter (fun s => s.offer_id = c)).length ≤ 1) := by
  constructor
  · intro feed ids matched rem hnd h rec hrec hrc
    refine ⟨?_, seller_prices_count_one feed ids hnd rec hrec hrc⟩
    have h2 := seller_loop_matched_once feed [] ids matched rem hnd h rec hrec hrc
    simpa using h2
  · intro feed ids matched rem c hnd h
    by_cases hc : c ∈ ids
    · rcases seller_loop_count_dichotomy c feed [] ids matched rem hnd hc h with
        ⟨_, hcnt⟩ | ⟨_, hcnt⟩
      · simp only [List.filter_nil, List.length_nil] at hcnt
        omega
      · simp only [List.filter_nil, List.length_nil] at hcnt
        omega
    · have h2 := seller_loop_count_not_mem c feed [] ids matched rem h hc
      simp only [List.filter_nil, List.length_nil] at h2
      omega

/-- C1 amended witness: one feed record with code "A" against catalog
["A"]: one matched StockUpdate and one PriceUpdate for "A". -/
theorem matched_record_unique_updates_witness :
    (([({ offer_id := "A", stock := 5 } : SellerStock)]).filter
        (fun s => s.offer_id = "A")).length = 1 ∧
    ((Seller.create_prices [{ code := "A", quantity := "5", price := "7" }]
        ["A"]).filter (fun p => p.offer_id = "A")).length = 1 :=
  matched_record_unique_updates.1
    [{ code := "A", quantity := "5", price := "7" }] ["A"]
    [{ offer_id := "A", stock := 5 }] [] (by decide) (by decide)
    { code := "A", quantity := "5", price := "7" } (by decide) (by decide)

/-! ## Claim C9: the mutation of offer_ids and its effect on prices -/

/-- C9: on a duplicate-free catalog, when seller.py's `create_stocks`
returns, the caller's `offer_ids` list holds exactly the catalog ids not
matched by any feed record; consequently seller.py's `main`, which passes
that mutated list to `create_prices`, obtains no PriceUpdate at all — in
particular none for any feed code matched during the stock computation. -/
theorem offer_ids_after_create_stocks (feed : List FeedRecord)
    (ids : List String) (stocks : List SellerStock) (rem : List String)
    (hnd : ids.Nodup)
    (h : Seller.create_stocks_full feed ids = some (stocks, rem)) :
    rem = ids.filter (fun i => feed.all (fun rec => !(rec.code == i))) ∧
    Seller.create_prices feed rem = [] := by
  rcases Option.map_eq_some'.mp h with ⟨⟨matched, rem2⟩, hloop, heq⟩
  simp only [Prod.mk.injEq] at heq
  rcases heq with ⟨_, hr⟩
  subst hr
  refine ⟨seller_loop_rem_eq_filter feed [] ids matched rem2 hnd hloop, ?_⟩
  apply seller_prices_nil
  intro rec hrec hmem
  rw [seller_loop_rem_eq_filter feed [] ids matched rem2 hnd hloop] at hmem
  have h2 := (List.mem_filter.mp hmem).2
  have h3 := List.all_eq_true.mp h2 rec hrec
  simp at h3

/-- C9 witness: feed record "A" against catalog ["A", "B"]: the mutated
offer_ids is ["B"], which is the filter of the unmatched ids, and
`create_prices` on it yields nothing. -/
theorem offer_ids_after_create_stocks_witness :
    (["B"] : List String) =
      (["A", "B"] : List String).filter (fun i =>
        ([({ code := "A", quantity := "5", price := "7" } : FeedRecord)]).all
          (fun rec => !(rec.code == i))) ∧
    Seller.create_prices [{ code := "A", quantity := "5", price := "7" }]
      ["B"] = [] :=
  offer_ids_after_create_stocks
    [{ code := "A", quantity := "5", price := "7" }] ["A", "B"]
    [{ offer_id := "A", stock := 5 }, { offer_id := "B", stock := 0 }] ["B"]
    (by decide) (by decide)

/-! ## Bridge between the two create_stocks implementations -/

theorem market_loop_eq_map (w d : String) :
    ∀ (feed : List FeedRecord) (acc : List SellerStock) (ids : List String),
      Market.create_stocks_loop w d feed (acc.map (toMarketStock w d)) ids =
        (Seller.create_stocks_loop feed acc ids).map
          (fun p => (p.1.map (toMarketStock w d), p.2)) := by
  intro feed
  induction feed with
  | nil => intro acc ids; rfl
  | cons watch rest ih =>
    intro acc ids
    simp only [Market.create_stocks_loop, Seller.create_stocks_loop]
    by_cases hmem : watch.code ∈ ids
    · rw [if_pos hmem, if_pos hmem]
      rcases hq : quantity_to_stock watch.quantity with _ | st
      · rfl
      · have hmap : (acc.map (toMarketStock w d)) ++
            [({ sku := watch.code, warehouseId := w,
                items := [{ count := st, type := "FIT", updatedAt := d }] }
              : MarketStock)] =
            (acc ++
              [({ offer_id := watch.code, stock := st } : SellerStock)]).map
              (toMarketStock w d) := by
          simp [toMarketStock]
        show Market.create_stocks_loop w d rest
            (acc.map (toMarketStock w d) ++
              [{ sku := watch.code, warehouseId := w,
                 items := [{ count := st, type := "FIT", updatedAt := d }] }])
            (ids.erase watch.code) =
          Option.map (fun p => (p.1.map (toMarketStock w d), p.2))
            (Seller.create_stocks_loop rest
              (acc ++ [{ offer_id := watch.code, stock := st }])
              (ids.erase watch.code))
        rw [hmap]
        exact ih _ _
    · rw [if_neg hmem, if_neg hmem]
      exact ih acc ids

theorem market_create_stocks_eq_map (feed : List FeedRecord)
    (ids : List String) (w d : String) :
    Market.create_stocks feed ids w d =
      (Seller.create_stocks feed ids).map (List.map (toMarketStock w d)) := by
  unfold Market.create_stocks Market.create_stocks_full
    Seller.create_stocks Seller.create_stocks_full
  have h := market_loop_eq_map w d feed [] ids
  simp only [List.map_nil] at h
  rw [h]
  rcases hres : Seller.create_stocks_loop feed [] ids with _ | p
  · rfl
  · rcases p with ⟨matched, rem⟩
    simp only [Option.map_some', List.map_append, List.map_map]
    rfl

/-! ## Claim C2: each catalog offer id appears in exactly one StockUpdate -/

/-- C2: on a duplicate-free catalog (the catalog is a set of offer ids),
every offer id known to the catalog appears in exactly one StockUpdate of
the run's stock output, for both marketplaces: either matched to a feed
record, or — when no feed record carries its code — zero-filled with
quantity 0 and with no corresponding PriceUpdate. -/
theorem catalog_offer_unique_stock (feed : List FeedRecord)
    (ids : List String) (hnd : ids.Nodup) :
    (∀ stocks, Seller.create_stocks feed ids = some stocks →
      ∀ i ∈ ids,
        (stocks.filter (fun s => s.offer_id = i)).length = 1 ∧
        ((∀ rec ∈ feed, rec.code ≠ i) →
          (∀ s ∈ stocks, s.offer_id = i → s.stock = 0) ∧
          (Seller.create_prices feed ids).filter
            (fun p => p.offer_id = i) = [])) ∧
    (∀ (w d : String) stocks,
      Market.create_stocks feed ids w d = some stocks →
      ∀ i ∈ ids,
        (stocks.filter (fun s => s.sku = i)).length = 1 ∧
        ((∀ rec ∈ feed, rec.code ≠ i) →
          (∀ s ∈ stocks, s.sku = i → ∀ it ∈ s.items, it.count = 0) ∧
          (∀ ps, Market.create_prices feed ids = some ps →
            ps.filter (fun p => p.id = i) = []))) := by
  have hS : ∀ stocks, Seller.create_stocks feed ids = some stocks →
      ∀ i ∈ ids,
        (stocks.filter (fun s => s.offer_id = i)).length = 1 ∧
        ((∀ rec ∈ feed, rec.code ≠ i) →
          (∀ s ∈ stocks, s.offer_id = i → s.stock = 0) ∧
          (Seller.create_prices feed ids).filter
            (fun p => p.offer_id = i) = []) := by
    intro stocks hst i hi
    rcases Option.map_eq_some'.mp hst with ⟨pr, hfull, hfst⟩
    rcases Option.map_eq_some'.mp hfull with ⟨⟨matched, rem⟩, hloop, hg⟩
    rw [← hg] at hfst
    rw [← hfst]
    have hremnd : rem.Nodup :=
      (seller_loop_rem_sublist feed [] ids matched rem hloop).nodup hnd
    have hzerolen : ((rem.map (fun offer_id =>
        ({ offer_id := offer_id, stock := 0 } : SellerStock))).filter
          (fun s => s.offer_id = i)).length =
        if i ∈ rem then 1 else 0 := by
      rw [List.filter_map, List.length_map]
      exact filter_eq_length_of_nodup rem i hremnd
    constructor
    · simp only [List.filter_append, List.length_append]
      rcases seller_loop_count_dichotomy i feed [] ids matched rem hnd hi
          hloop with ⟨hr, hcnt⟩ | ⟨hr, hcnt⟩
      · simp only [List.filter_nil, List.length_nil] at hcnt
        rw [hcnt, hzerolen, if_pos hr]
      · simp only [List.filter_nil, List.length_nil] at hcnt
        rw [hcnt, hzerolen, if_neg hr]
    · intro hcode
      have hinrem : i ∈ rem :=
        seller_loop_unmatched_stays i feed [] ids matched rem hloop hi hcode
      have hmcnt : (matched.filter (fun s => s.offer_id = i)).length = 0 := by
        rcases seller_loop_count_dichotomy i feed [] ids matched rem hnd hi
            hloop with ⟨_, hcnt⟩ | ⟨hr, _⟩
        · simpa using hcnt
        · exact absurd hinrem hr
      constructor
      · intro s hs hsi
        rcases List.mem_append.mp hs with hsm | hsz
        · exfalso
          have hmem2 : s ∈ matched.filter (fun s2 => s2.offer_id = i) :=
            List.mem_filter.mpr ⟨hsm, by simp [hsi]⟩
          rw [List.length_eq_zero.mp hmcnt] at hmem2
          exact absurd hmem2 (List.not_mem_nil s)
        · rcases List.mem_map.mp hsz with ⟨x, _, hx⟩
          rw [← hx]
      · exact seller_prices_filter_nil i feed ids hcode
  refine ⟨hS, ?_⟩
  intro w d stocks hst i hi
  rw [market_create_stocks_eq_map] at hst
  rcases Option.map_eq_some'.mp hst with ⟨ss, hss, hmap⟩
  rw [← hmap]
  obtain ⟨hcount, hrest⟩ := hS ss hss i hi
  constructor
  · rw [List.filter_map, List.length_map]
    exact hcount
  · intro hcode
    obtain ⟨hzero, _⟩ := hrest hcode
    constructor
    · intro s hs hsku it hit
      rcases List.mem_map.mp hs with ⟨s0, hs0, hfs⟩
      rw [← hfs] at hsku hit
      have hstk : s0.stock = 0 := hzero s0 hs0 hsku
      simp only [toMarketStock, List.mem_singleton] at hit
      rw [hit, hstk]
    · intro ps hps
      refine List.filter_eq_nil_iff.mpr (fun p hp => ?_)
      simp only [decide_eq_true_eq]
      intro he
      rcases market_prices_mem_code feed ids ps p hps hp with ⟨rec, hr, hc⟩
      exact hcode rec hr (by rw [← hc, he])

/-- C2 witness: empty feed against catalog ["A"]: the single offer id "A"
appears in exactly one (zero-filled) StockUpdate for each marketplace, with
no PriceUpdate. -/
theorem catalog_offer_unique_stock_witness :
    (([({ offer_id := "A", stock := 0 } : SellerStock)]).filter
        (fun s => s.offer_id = "A")).length = 1 ∧
    (([({ sku := "A", warehouseId := "W",
          items := [{ count := 0, type := "FIT", updatedAt := "t" }] }
        : MarketStock)]).filter (fun s => s.sku = "A")).length = 1 :=
  ⟨((catalog_offer_unique_stock [] ["A"] (by decide)).1
      [{ offer_id := "A", stock := 0 }] (by decide) "A" (by decide)).1,
    ((catalog_offer_unique_stock [] ["A"] (by decide)).2 "W" "t"
      [{ sku := "A", warehouseId := "W",
         items := [{ count := 0, type := "FIT", updatedAt := "t" }] }]
      (by decide) "A" (by decide)).1⟩
